import Mathlib

/-!
Shallow embedding of the waterfall visualizer in src/frontend/js/app.js:
normalizeData, getColor together with the three.js HSL helpers it calls,
createGeometry, addData, onResize, updateLineChart and the spectrum_data
socket handler. Finite JavaScript numbers are modelled as rationals; the
one place where the source can produce Infinity or NaN (the division by
zero in createGeometry when a frame has fewer than two samples) is modelled
by the JSVal type. Each THREE.Line object is given a numeric id standing
for JavaScript object identity.
-/

namespace Waterfall

/-- A JavaScript number that may be Infinity, -Infinity or NaN. -/
inductive JSVal where
  | num (q : ℚ)
  | inf
  | ninf
  | nan
deriving DecidableEq, Repr

/-- JavaScript division a / b of finite operands. -/
def jsDiv (a b : ℚ) : JSVal :=
  if b = 0 then
    if 0 < a then .inf else if a < 0 then .ninf else .nan
  else .num (a / b)

/-- JavaScript product n * v of a natural number and a JSVal; 0 times an
infinity is NaN. -/
def jsMulNat (n : ℕ) (v : JSVal) : JSVal :=
  match v with
  | .num q => .num (n * q)
  | .inf => if n = 0 then .nan else .inf
  | .ninf => if n = 0 then .nan else .ninf
  | .nan => .nan

/-- An RGB color: the three.js Color fields r, g, b. -/
structure Color where
  r : ℚ
  g : ℚ
  b : ℚ
deriving DecidableEq, Repr

/-- A hue, saturation, lightness triple as produced by Color.getHSL. -/
structure HSL where
  h : ℚ
  s : ℚ
  l : ℚ
deriving DecidableEq, Repr

/-- new THREE.Color(hex): channels hex >> 16 & 255, hex >> 8 & 255,
hex & 255, each divided by 255. three.js additionally converts sRGB
channels into its linear working color space; every stop color in the
config has channels 0x00 or 0xff, on which that conversion is the
identity, so it is omitted here. -/
def ofHex (hex : ℕ) : Color :=
  ⟨((hex / 65536 % 256 : ℕ) : ℚ) / 255,
   ((hex / 256 % 256 : ℕ) : ℚ) / 255,
   ((hex % 256 : ℕ) : ℚ) / 255⟩

/-- three.js Color.getHSL. -/
def getHSL (c : Color) : HSL :=
  let mx := max c.r (max c.g c.b)
  let mn := min c.r (min c.g c.b)
  let l := (mn + mx) / 2
  if mn = mx then ⟨0, 0, l⟩
  else
    let d := mx - mn
    let s := if l ≤ 0.5 then d / (mx + mn) else d / (2 - mx - mn)
    let hue :=
      if mx = c.r then (c.g - c.b) / d + (if c.g < c.b then 6 else 0)
      else if mx = c.g then (c.b - c.r) / d + 2
      else (c.r - c.g) / d + 4
    ⟨hue / 6, s, l⟩

/-- three.js hue2rgb helper; the two reductions of t are sequential. -/
def hue2rgb (p q t : ℚ) : ℚ :=
  let t1 := if t < 0 then t + 1 else t
  let t2 := if 1 < t1 then t1 - 1 else t1
  if t2 < 1/6 then p + (q - p) * 6 * t2
  else if t2 < 1/2 then q
  else if t2 < 2/3 then p + (q - p) * 6 * (2/3 - t2)
  else p

/-- three.js euclideanModulo(x, 1). -/
def emod1 (x : ℚ) : ℚ := x - ⌊x⌋

/-- three.js Color.setHSL; the working color space conversion at the end is
the identity for the call made by this program. -/
def setHSL (h s l : ℚ) : Color :=
  let h1 := emod1 h
  let s1 := max 0 (min 1 s)
  let l1 := max 0 (min 1 l)
  if s1 = 0 then ⟨l1, l1, l1⟩
  else
    let p := if l1 ≤ 0.5 then l1 * (1 + s1) else l1 + s1 - l1 * s1
    let q := 2 * l1 - p
    ⟨hue2rgb q p (h1 + 1/3), hue2rgb q p h1, hue2rgb q p (h1 - 1/3)⟩

/-- config.colors: the gradient stops as (t, hex) pairs. -/
def colorStops : List (ℚ × ℕ) :=
  [(0.0, 0x0000ff), (0.25, 0x00ffff), (0.5, 0x00ff00), (0.75, 0xffff00), (1.0, 0xff0000)]

/-- config.maxLines. -/
def maxLines : ℕ := 5000

/-- config.spacing. -/
def spacing : ℚ := 1.0

/-- config.zScale. -/
def zScale : ℚ := 2.0

/-- The body of the stop-search loop of getColor at stops prev and next:
linear interpolation of hue, saturation and lightness, with the 1.5
saturation boost applied inside setHSL. -/
def interpStops (prev next : ℚ × ℕ) (value : ℚ) : Color :=
  let t := (value - prev.1) / (next.1 - prev.1)
  let c1 := getHSL (ofHex prev.2)
  let c2 := getHSL (ofHex next.2)
  setHSL (c1.h + t * (c2.h - c1.h)) ((c1.s + t * (c2.s - c1.s)) * 1.5) (c1.l + t * (c2.l - c1.l))

/-- The for loop of getColor: starting from index 1, return at the first
stop whose threshold is at least value. -/
def findStop (value : ℚ) : ℚ × ℕ → List (ℚ × ℕ) → Option Color
  | _, [] => none
  | prev, next :: rest =>
      if value ≤ next.1 then some (interpStops prev next value) else findStop value next rest

/-- WaterfallVisualizer.getColor. The empty arm of the outer match is dead
code: colorStops is a fixed five element list. The fallback after the loop
is new THREE.Color of the last stop hex, without the saturation boost. -/
def getColor (value : ℚ) : Color :=
  let v := min (max value 0) 1
  match colorStops with
  | [] => ofHex 0
  | c0 :: rest =>
      match findStop v c0 rest with
      | some c => c
      | none => ofHex (colorStops.getLastD (0, 0)).2

/-- A stop color with the 1.5 saturation boost applied: the reference value
of the boundary claims about getColor. -/
def boostedStopColor (hex : ℕ) : Color :=
  let c := getHSL (ofHex hex)
  setHSL c.h (c.s * 1.5) c.l

/-- Math.min over a frame; 0 stands in for the empty case, where the JS
value Infinity never reaches the output because both normalizeData branches
map the empty array to the empty array. -/
def listMin : List ℚ → ℚ
  | [] => 0
  | x :: xs => xs.foldl min x

/-- Math.max over a frame; 0 stands in for the empty case as in listMin. -/
def listMax : List ℚ → ℚ
  | [] => 0
  | x :: xs => xs.foldl max x

/-- WaterfallVisualizer.normalizeData. -/
def normalizeData (data : List ℚ) : List ℚ :=
  let mn := listMin data
  let mx := listMax data
  let range := mx - mn
  if range = 0 then data.map (fun _ => 0.5) else data.map (fun v => (v - mn) / range)

/-- The two BufferGeometry attributes built by createGeometry, kept as
lists of vertices. -/
structure Geometry where
  positions : List (JSVal × ℚ × ℚ)
  colors : List Color
deriving DecidableEq, Repr

/-- WaterfallVisualizer.createGeometry: x spacing containerWidth / (N - 1),
y fixed at 0, z equal to sample * zScale, one getColor per sample. -/
def createGeometry (containerWidth : ℚ) (waterfall : List ℚ) : Geometry :=
  let spectrum := normalizeData waterfall
  let xScale := jsDiv containerWidth ((spectrum.length : ℚ) - 1)
  { positions := (List.range spectrum.length).map
      (fun i => (jsMulNat i xScale, 0, spectrum.getD i 0 * zScale)),
    colors := spectrum.map getColor }

/-- One THREE.Line held in this.lines: id models JavaScript object
identity, y is line.position.y, geom its geometry. -/
structure Row where
  id : ℕ
  y : ℚ
  geom : Geometry
deriving DecidableEq, Repr

/-- WaterfallVisualizer state: nextId is a fresh identity counter, lines is
this.lines newest first, scene holds the ids of the Line objects currently
in this.scene in insertion order (the ambient light is not modelled), width
and height are the container client size, camRight and camTop the
orthographic camera bounds set by onResize. -/
structure VisState where
  nextId : ℕ
  lines : List Row
  scene : List ℕ
  width : ℚ
  height : ℚ
  camRight : ℚ
  camTop : ℚ
deriving DecidableEq, Repr

/-- line.position.y -= spacing. -/
def decRow (r : Row) : Row := { r with y := r.y - spacing }

/-- The forEach loop at the end of addData. forEach iterates over the
snapshot of this.lines taken when it starts; reassigning this.lines inside
the callback does not change that snapshot, and each line object is
decremented exactly once, at its own visit, so the removal test for the
visited entry a reads a.y - spacing. Removal compares object identity,
modelled by ids. -/
def evictLoop : List Row → List Row × List ℕ → List Row × List ℕ
  | [], st => st
  | a :: rest, (lines, scene) =>
      let lines1 := lines.map (fun r => if r.id = a.id then decRow r else r)
      if a.y - spacing < -spacing then
        evictLoop rest (lines1.filter (fun r => r.id != a.id), scene.filter (fun i => i != a.id))
      else
        evictLoop rest (lines1, scene)

/-- WaterfallVisualizer.addData, called with the waterfall array of the
frame (the only field it reads). The new line starts at
y = container.clientHeight, is unshifted into this.lines and added to the
scene; if capacity is exceeded the popped oldest line is removed from the
scene; then the forEach loop advances and bottom-evicts. -/
def addData (st : VisState) (waterfall : List ℚ) : VisState :=
  let geom := createGeometry st.width waterfall
  let line : Row := { id := st.nextId, y := st.height, geom := geom }
  let lines1 := line :: st.lines
  let scene1 := st.scene ++ [line.id]
  let popped := lines1.getLastD line
  let lines2 := if maxLines < lines1.length then lines1.dropLast else lines1
  let scene2 := if maxLines < lines1.length then scene1.filter (fun i => i != popped.id) else scene1
  let out := evictLoop lines2 (lines2, scene2)
  { st with nextId := st.nextId + 1, lines := out.1, scene := out.2 }

/-- A container resize followed by the ResizeObserver callback onResize:
new client size, renderer size, and camera right and top bounds. Existing
lines and their geometries are untouched. -/
def resizeContainer (st : VisState) (w h : ℚ) : VisState :=
  { st with width := w, height := h, camRight := w, camTop := h }

/-- Visualizer state right after the constructor: empty history. -/
def initVis (w h : ℚ) : VisState :=
  { nextId := 0, lines := [], scene := [], width := w, height := h, camRight := w, camTop := h }

/-- A parsed spectrum_data object: each field either present or absent. -/
structure FrameObj where
  freqs : Option (List ℚ)
  power : Option (List ℚ)
  waterfall : Option (List ℚ)
deriving DecidableEq, Repr

/-- A spectrum_data payload: a string rejected by JSON.parse, a string that
parses to an object, or an already structured object. -/
inductive Payload where
  | badString
  | goodString (f : FrameObj)
  | obj (f : FrameObj)
deriving DecidableEq, Repr

/-- Page state around the visualizer: the line chart labels and data, and
a count of console entries written by the catch block. -/
structure AppState where
  vis : VisState
  chartLabels : List ℚ
  chartData : List ℚ
  errLog : ℕ
deriving DecidableEq, Repr

/-- updateLineChart: no-op unless freqs and power are both present; labels
become freqs divided by 1e6. -/
def updateLineChart (st : AppState) (f : FrameObj) : AppState :=
  match f.freqs, f.power with
  | some fr, some pw =>
      { st with chartLabels := fr.map (fun x => x / 1000000), chartData := pw }
  | _, _ => st

/-- The catch block of the handler: console.error plus console.log. -/
def logCatch (st : AppState) : AppState := { st with errLog := st.errLog + 2 }

/-- The socket.on spectrum_data handler: early return when not streaming;
JSON.parse failure or a missing freqs or waterfall field lands in the catch
block; otherwise addData then updateLineChart. -/
def onSpectrumData (isStreaming : Bool) (st : AppState) (p : Payload) : AppState :=
  if isStreaming then
    match p with
    | .badString => logCatch st
    | .goodString f | .obj f =>
        match f.freqs, f.waterfall with
        | some _, some wf => updateLineChart { st with vis := addData st.vis wf } f
        | _, _ => logCatch st
  else st

/-- The malformed payloads named by the claims: a JSON.parse failure, or a
missing freqs or waterfall field. -/
def isMalformed : Payload → Bool
  | .badString => true
  | .goodString f => f.freqs.isNone || f.waterfall.isNone
  | .obj f => f.freqs.isNone || f.waterfall.isNone

/-- Page state right after startup. -/
def initApp (w h : ℚ) : AppState :=
  { vis := initVis w h, chartLabels := [], chartData := [], errLog := 0 }

/-- Fold addData over a list of frames given by their waterfall arrays. -/
def runFrames (w h : ℚ) (frames : List (List ℚ)) : VisState :=
  frames.foldl addData (initVis w h)

/-- m successive inserts, the k-th frame taken from fs k. -/
def insertSeq (w h : ℚ) (fs : ℕ → List ℚ) : ℕ → VisState
  | 0 => initVis w h
  | m + 1 => addData (insertSeq w h fs m) (fs m)

/-- The new Line constructed by addData. -/
def newRow (st : VisState) (waterfall : List ℚ) : Row :=
  { id := st.nextId, y := st.height, geom := createGeometry st.width waterfall }

/-- Overflow eviction: drop the oldest line when capacity is exceeded. -/
def maybePop (l : List Row) : List Row :=
  if maxLines < l.length then l.dropLast else l

/-- One advance and bottom-evict pass, as a single map and filter; proved
below to agree with the forEach loop on states with distinct line ids. -/
def advance (l : List Row) : List Row :=
  (l.map decRow).filter (fun r => !decide (r.y < -spacing))

/-- Well-formed visualizer states: line ids are distinct and below the
counter, and the scene holds exactly the lines, oldest first. -/
abbrev WFv (st : VisState) : Prop :=
  (st.lines.map Row.id).Nodup ∧ (∀ r ∈ st.lines, r.id < st.nextId) ∧
    st.scene = (st.lines.map Row.id).reverse

/-- Frames with at least two samples. -/
abbrev ValidFrames (frames : List (List ℚ)) : Prop := ∀ f ∈ frames, 2 ≤ f.length

/-- Number of rows alive after m inserts at container height h, h ≥ 0. -/
def Lm (h : ℚ) (m : ℕ) : ℕ := min m (min maxLines (⌊h⌋.toNat + 1))

/-- Row j, counted newest first, of the history after m inserts. -/
def rowAt (w h : ℚ) (fs : ℕ → List ℚ) (m j : ℕ) : Row :=
  { id := m - 1 - j, y := h - ((j : ℚ) + 1), geom := createGeometry w (fs (m - 1 - j)) }

/-- Row j, counted newest first, right after the prepend of insert m + 1
and before the advance step. -/
def preRow (w h : ℚ) (fs : ℕ → List ℚ) (m j : ℕ) : Row :=
  { id := m - j, y := h - (j : ℚ), geom := createGeometry w (fs (m - j)) }

/-- A 100-sample frame. -/
def constFrame100 : List ℚ := (List.range 100).map (fun i => (i : ℚ))

/-- A stream of 100-sample frames. -/
def fseq100 : ℕ → List ℚ := fun _ => constFrame100

/-- Every frame of the stream has 100 samples. -/
abbrev AllLen100 (fs : ℕ → List ℚ) : Prop := ∀ i, (fs i).length = 100

/-- A row already below the visible range by more than one advance step. -/
def wit7Row : Row := { id := 0, y := -2, geom := { positions := [], colors := [] } }

/-- A small well-formed state holding wit7Row, used to exercise eviction. -/
def wit7State : VisState :=
  { nextId := 2,
    lines := [{ id := 1, y := 599, geom := { positions := [], colors := [] } }, wit7Row],
    scene := [0, 1], width := 800, height := 600, camRight := 800, camTop := 600 }

theorem decRow_id (r : Row) : (decRow r).id = r.id := rfl

theorem decRow_geom (r : Row) : (decRow r).geom = r.geom := rfl

theorem decRow_y (r : Row) : (decRow r).y = r.y - spacing := rfl

theorem advance_nil : advance [] = [] := rfl

theorem advance_cons (a : Row) (t : List Row) :
    advance (a :: t) =
      if a.y - spacing < -spacing then advance t else decRow a :: advance t := by
  simp only [advance, List.map_cons, List.filter_cons, decRow_y]
  by_cases h : a.y - spacing < -spacing
  · simp [h]
  · simp [h]

theorem filter_reverse_eq (p : ℕ → Bool) (l : List ℕ) :
    l.reverse.filter p = (l.filter p).reverse := by
  induction l with
  | nil => rfl
  | cons a t ih =>
    by_cases h : p a
    · simp [List.filter_cons, h, List.filter_append, ih]
    · simp [List.filter_cons, h, List.filter_append, ih]

/-- The forEach loop agrees with the single advance-and-evict pass on any
state whose line ids are distinct, when the loop runs over the snapshot of
the current lines and the scene lists the lines oldest first. -/
theorem evictLoop_eq (rest : List Row) : ∀ P : List Row,
    ((P ++ rest).map Row.id).Nodup →
    evictLoop rest (P ++ rest, ((P ++ rest).map Row.id).reverse) =
      (P ++ advance rest, ((P ++ advance rest).map Row.id).reverse) := by
  induction rest with
  | nil => intro P hnd; simp [evictLoop, advance]
  | cons a t ih =>
    intro P hnd
    have hnd2 : (P.map Row.id ++ (a.id :: t.map Row.id)).Nodup := by
      simpa [List.map_append] using hnd
    obtain ⟨hndP, hndat, hdisj⟩ := List.nodup_append.mp hnd2
    have ha_t : a.id ∉ t.map Row.id := (List.nodup_cons.mp hndat).1
    have hP : ∀ r ∈ P, r.id ≠ a.id := by
      intro r hr heq
      exact hdisj (List.mem_map_of_mem Row.id hr) (by simp [heq])
    have hT : ∀ r ∈ t, r.id ≠ a.id := by
      intro r hr heq
      exact ha_t (heq ▸ List.mem_map_of_mem Row.id hr)
    have hmapP : P.map (fun r => if r.id = a.id then decRow r else r) = P := by
      calc P.map (fun r => if r.id = a.id then decRow r else r)
          = P.map id := List.map_congr_left (fun r hr => if_neg (hP r hr))
        _ = P := List.map_id P
    have hmapT : t.map (fun r => if r.id = a.id then decRow r else r) = t := by
      calc t.map (fun r => if r.id = a.id then decRow r else r)
          = t.map id := List.map_congr_left (fun r hr => if_neg (hT r hr))
        _ = t := List.map_id t
    have hmap : (P ++ a :: t).map (fun r => if r.id = a.id then decRow r else r)
        = P ++ decRow a :: t := by
      rw [List.map_append, List.map_cons, if_pos rfl, hmapP, hmapT]
    have hidseq : ((P ++ [decRow a]) ++ t).map Row.id = (P ++ a :: t).map Row.id := by
      simp [decRow_id]
    simp only [evictLoop]
    rw [hmap]
    by_cases hrem : a.y - spacing < -spacing
    · rw [if_pos hrem]
      have hfilP : P.filter (fun r => r.id != a.id) = P :=
        List.filter_eq_self.mpr (fun r hr => by simpa using hP r hr)
      have hfilT : t.filter (fun r => r.id != a.id) = t :=
        List.filter_eq_self.mpr (fun r hr => by simpa using hT r hr)
      have hfil : (P ++ decRow a :: t).filter (fun r => r.id != a.id) = P ++ t := by
        rw [List.filter_append, List.filter_cons]
        simp [decRow_id, hfilP, hfilT]
      have hscP : (P.map Row.id).filter (fun i => i != a.id) = P.map Row.id :=
        List.filter_eq_self.mpr (fun i hi => by
          obtain ⟨r, hr, rfl⟩ := List.mem_map.mp hi
          simpa using hP r hr)
      have hscT : (t.map Row.id).filter (fun i => i != a.id) = t.map Row.id :=
        List.filter_eq_self.mpr (fun i hi => by
          obtain ⟨r, hr, rfl⟩ := List.mem_map.mp hi
          simpa using hT r hr)
      have hsc : (((P ++ a :: t).map Row.id).reverse).filter (fun i => i != a.id)
          = ((P ++ t).map Row.id).reverse := by
        rw [filter_reverse_eq]
        rw [List.map_append, List.filter_append, List.map_cons, List.filter_cons]
        simp [hscP, hscT, List.map_append]
      rw [hfil, hsc]
      have hndPt : ((P ++ t).map Row.id).Nodup := by
        rw [List.map_append]
        exact List.nodup_append.mpr ⟨hndP, (List.nodup_cons.mp hndat).2,
          fun x hx hx2 => hdisj hx (List.mem_cons_of_mem _ hx2)⟩
      rw [ih P hndPt, advance_cons, if_pos hrem]
    · rw [if_neg hrem]
      have hstep : P ++ decRow a :: t = (P ++ [decRow a]) ++ t := by
        simp
      have hnd3 : (((P ++ [decRow a]) ++ t).map Row.id).Nodup := by
        rw [hidseq]; exact hnd
      rw [hstep, ← hidseq]
      rw [ih (P ++ [decRow a]) hnd3, advance_cons, if_neg hrem]
      simp

theorem addData_nextId (st : VisState) (wf : List ℚ) :
    (addData st wf).nextId = st.nextId + 1 := rfl

theorem addData_width (st : VisState) (wf : List ℚ) :
    (addData st wf).width = st.width := rfl

theorem addData_height (st : VisState) (wf : List ℚ) :
    (addData st wf).height = st.height := rfl

/-- On a well-formed state, addData computes exactly: prepend the new line,
pop on overflow, then one advance-and-evict pass; the scene stays the
reversed id list of the lines. -/
theorem addData_char (st : VisState) (wf : List ℚ) (h : WFv st) :
    (addData st wf).lines = advance (maybePop (newRow st wf :: st.lines)) ∧
    (addData st wf).scene =
      ((advance (maybePop (newRow st wf :: st.lines))).map Row.id).reverse := by
  obtain ⟨hnd, hlt, hsc⟩ := h
  have hnotmem : st.nextId ∉ st.lines.map Row.id := by
    intro hmem
    obtain ⟨r, hr, hrid⟩ := List.mem_map.mp hmem
    exact absurd (hrid ▸ hlt r hr) (lt_irrefl _)
  have hnd1 : ((newRow st wf :: st.lines).map Row.id).Nodup := by
    simpa [newRow] using List.nodup_cons.mpr ⟨hnotmem, hnd⟩
  have hscene1 : st.scene ++ [st.nextId] = ((newRow st wf :: st.lines).map Row.id).reverse := by
    rw [hsc]; simp [newRow]
  have hnrw : (⟨st.nextId, st.height, createGeometry st.width wf⟩ : Row) = newRow st wf := rfl
  simp only [addData, maybePop]
  rw [hnrw]
  by_cases hpop : maxLines < (newRow st wf :: st.lines).length
  · simp only [if_pos hpop]
    obtain ⟨L, b, hLb⟩ : ∃ L b, newRow st wf :: st.lines = L ++ [b] := by
      rcases List.eq_nil_or_concat (newRow st wf :: st.lines) with h0 | ⟨L, b, hcc⟩
      · exact absurd h0 (List.cons_ne_nil _ _)
      · exact ⟨L, b, by rw [hcc, List.concat_eq_append]⟩
    rw [hLb, List.dropLast_concat]
    have hpb : (L ++ [b]).getLastD (newRow st wf) = b := by
      simp [List.getLastD_eq_getLast?]
    rw [hpb]
    have hndLb : (L.map Row.id ++ [b.id]).Nodup := by
      have := hnd1; rw [hLb] at this; simpa using this
    obtain ⟨hndL, _, hdisjL⟩ := List.nodup_append.mp hndLb
    have hbid : b.id ∉ L.map Row.id := fun hmem => hdisjL hmem (by simp)
    have hS : (st.scene ++ [st.nextId]).filter (fun i => i != b.id) = (L.map Row.id).reverse := by
      rw [hscene1, hLb]
      rw [List.map_append, List.reverse_append]
      simp only [List.map_cons, List.map_nil, List.reverse_cons, List.reverse_nil,
        List.nil_append, List.singleton_append, List.filter_cons]
      have hb : (b.id != b.id) = false := by simp
      rw [hb]
      simp only [Bool.false_eq_true, if_false]
      exact List.filter_eq_self.mpr (fun i hi => by
        have hmem : i ∈ L.map Row.id := List.mem_reverse.mp hi
        have hne : i ≠ b.id := fun hEq => hbid (hEq ▸ hmem)
        simpa using hne)
    rw [hS]
    have heq := evictLoop_eq L [] (by simpa using hndL)
    simp only [List.nil_append] at heq
    rw [heq]
    exact ⟨rfl, rfl⟩
  · simp only [if_neg hpop]
    rw [hscene1]
    have heq := evictLoop_eq (newRow st wf :: st.lines) [] (by simpa using hnd1)
    simp only [List.nil_append] at heq
    rw [heq]
    exact ⟨rfl, rfl⟩

theorem evictLoop_fst_length_le (rest : List Row) :
    ∀ L sc, ((evictLoop rest (L, sc)).1).length ≤ L.length := by
  induction rest with
  | nil => intro L sc; simp [evictLoop]
  | cons a t ih =>
    intro L sc
    simp only [evictLoop]
    by_cases hrem : a.y - spacing < -spacing
    · rw [if_pos hrem]
      refine le_trans (ih _ _) ?_
      refine le_trans (List.length_filter_le _ _) ?_
      simp
    · rw [if_neg hrem]
      refine le_trans (ih _ _) ?_
      simp

theorem ite_pop_length_le (l : List Row) (h : l.length ≤ maxLines + 1) :
    (if maxLines < l.length then l.dropLast else l).length ≤ maxLines := by
  by_cases hp : maxLines < l.length
  · rw [if_pos hp, List.length_dropLast]; omega
  · rw [if_neg hp]; omega

theorem addData_length_le (st : VisState) (wf : List ℚ)
    (hb : st.lines.length ≤ maxLines) : (addData st wf).lines.length ≤ maxLines := by
  simp only [addData]
  refine le_trans (evictLoop_fst_length_le _ _ _) ?_
  refine ite_pop_length_le _ ?_
  simp only [List.length_cons]
  omega

theorem foldl_addData_le (frames : List (List ℚ)) :
    ∀ st : VisState, st.lines.length ≤ maxLines →
      (frames.foldl addData st).lines.length ≤ maxLines := by
  induction frames with
  | nil => intro st h; simpa using h
  | cons f t ih =>
    intro st h
    simp only [List.foldl_cons]
    exact ih _ (addData_length_le st f h)

/-- C2: for every sequence of valid inserted frames, the number of rows in
this.lines is at most maxLines = 5000 after every insert (stated for an
arbitrary sequence, hence for every prefix of any run). -/
theorem C2_history_length_bounded (w h : ℚ) (frames : List (List ℚ))
    (hv : ValidFrames frames) :
    (runFrames w h frames).lines.length ≤ maxLines := by
  exact foldl_addData_le frames (initVis w h) (by simp [initVis])

theorem C2_witness :
    ValidFrames [[(0 : ℚ), 1]] ∧
      (runFrames 800 600 [[(0 : ℚ), 1]]).lines.length ≤ maxLines := by
  have hv : ValidFrames [[(0 : ℚ), 1]] := by
    intro f hf
    rw [List.mem_singleton] at hf
    subst hf
    decide
  exact ⟨hv, C2_history_length_bounded 800 600 [[(0 : ℚ), 1]] hv⟩

theorem foldl_min_le_init (xs : List ℚ) : ∀ a : ℚ, xs.foldl min a ≤ a := by
  induction xs with
  | nil => intro a; simp
  | cons x t ih =>
    intro a
    calc (x :: t).foldl min a = t.foldl min (min a x) := by simp
      _ ≤ min a x := ih (min a x)
      _ ≤ a := min_le_left _ _

theorem foldl_min_le_mem (xs : List ℚ) : ∀ a x, x ∈ xs → xs.foldl min a ≤ x := by
  induction xs with
  | nil => intro a x hx; cases hx
  | cons y t ih =>
    intro a x hx
    rcases List.mem_cons.mp hx with rfl | hm
    · calc (x :: t).foldl min a = t.foldl min (min a x) := by simp
        _ ≤ min a x := foldl_min_le_init t (min a x)
        _ ≤ x := min_le_right _ _
    · calc (y :: t).foldl min a = t.foldl min (min a y) := by simp
        _ ≤ x := ih (min a y) x hm

theorem init_le_foldl_max (xs : List ℚ) : ∀ a : ℚ, a ≤ xs.foldl max a := by
  induction xs with
  | nil => intro a; simp
  | cons x t ih =>
    intro a
    calc a ≤ max a x := le_max_left _ _
      _ ≤ t.foldl max (max a x) := ih (max a x)
      _ = (x :: t).foldl max a := by simp

theorem mem_le_foldl_max (xs : List ℚ) : ∀ a x, x ∈ xs → x ≤ xs.foldl max a := by
  induction xs with
  | nil => intro a x hx; cases hx
  | cons y t ih =>
    intro a x hx
    rcases List.mem_cons.mp hx with rfl | hm
    · calc x ≤ max a x := le_max_right _ _
        _ ≤ t.foldl max (max a x) := init_le_foldl_max t (max a x)
        _ = (x :: t).foldl max a := by simp
    · calc x ≤ t.foldl max (max a y) := ih (max a y) x hm
        _ = (y :: t).foldl max a := by simp

theorem listMin_le_mem (d : List ℚ) (x : ℚ) (hx : x ∈ d) : listMin d ≤ x := by
  cases d with
  | nil => cases hx
  | cons y t =>
    rcases List.mem_cons.mp hx with rfl | hm
    · exact foldl_min_le_init t x
    · exact foldl_min_le_mem t y x hm

theorem mem_le_listMax (d : List ℚ) (x : ℚ) (hx : x ∈ d) : x ≤ listMax d := by
  cases d with
  | nil => cases hx
  | cons y t =>
    rcases List.mem_cons.mp hx with rfl | hm
    · exact init_le_foldl_max t x
    · exact mem_le_foldl_max t y x hm

/-- C4: normalizeData preserves length; a flat frame (max equal to min)
maps to the constant 0.5 sequence; otherwise each element maps to
(v - min) / (max - min), which lies in [0, 1]. -/
theorem C4_normalizeData_spec (d : List ℚ) :
    (normalizeData d).length = d.length ∧
    (listMax d = listMin d → ∀ x ∈ normalizeData d, x = 0.5) ∧
    (listMax d ≠ listMin d →
      (∀ i, i < d.length →
        (normalizeData d).getD i 0 =
          (d.getD i 0 - listMin d) / (listMax d - listMin d)) ∧
      (∀ x ∈ normalizeData d, 0 ≤ x ∧ x ≤ 1)) := by
  refine ⟨?_, ?_, ?_⟩
  · simp only [normalizeData]
    split_ifs <;> simp
  · intro hflat x hx
    have hz : listMax d - listMin d = 0 := by rw [hflat, sub_self]
    simp only [normalizeData, if_pos hz] at hx
    obtain ⟨v, _, rfl⟩ := List.mem_map.mp hx
    rfl
  · intro hne
    have hz : listMax d - listMin d ≠ 0 := sub_ne_zero.mpr hne
    have hdne : d ≠ [] := by
      intro h0
      subst h0
      exact hne rfl
    obtain ⟨y, t, rfl⟩ := List.exists_cons_of_ne_nil hdne
    have hminmax : listMin (y :: t) < listMax (y :: t) :=
      lt_of_le_of_ne
        (le_trans (listMin_le_mem _ y (List.mem_cons_self y t))
          (mem_le_listMax _ y (List.mem_cons_self y t)))
        (Ne.symm hne)
    have hpos : 0 < listMax (y :: t) - listMin (y :: t) := by linarith
    constructor
    · intro i hi
      simp only [normalizeData, if_neg hz]
      have hi2 : i < ((y :: t).map
          (fun v => (v - listMin (y :: t)) / (listMax (y :: t) - listMin (y :: t)))).length := by
        simpa using hi
      rw [List.getD_eq_getElem _ _ hi2, List.getElem_map, List.getD_eq_getElem _ _ hi]
    · intro x hx
      simp only [normalizeData, if_neg hz] at hx
      obtain ⟨v, hv, rfl⟩ := List.mem_map.mp hx
      constructor
      · exact div_nonneg (by linarith [listMin_le_mem (y :: t) v hv]) (le_of_lt hpos)
      · rw [div_le_one hpos]
        linarith [mem_le_listMax (y :: t) v hv]

/-- C5: getColor at 0 is exactly the first stop color and at 1 exactly the
last stop color, each after the 1.5 saturation boost, with no division by
zero at either boundary; every input is clamped into [0, 1] before the stop
lookup. -/
theorem C5_getColor_boundaries :
    getColor 0 = boostedStopColor 0x0000ff ∧
    getColor 1 = boostedStopColor 0xff0000 ∧
    ∀ v : ℚ, getColor v = getColor (min (max v 0) 1) := by
  refine ⟨?_, ?_, ?_⟩
  · norm_num [getColor, boostedStopColor, colorStops, findStop, interpStops, getHSL, setHSL,
      hue2rgb, emod1, ofHex]
  · norm_num [getColor, boostedStopColor, colorStops, findStop, interpStops, getHSL, setHSL,
      hue2rgb, emod1, ofHex]
  · intro v
    have h0 : 0 ≤ min (max v 0) 1 := le_min (le_max_right v 0) zero_le_one
    have h1 : min (max v 0) 1 ≤ 1 := min_le_right _ _
    have hc : min (max (min (max v 0) 1) 0) 1 = min (max v 0) 1 := by
      rw [max_eq_left h0, min_eq_left h1]
    simp only [getColor]
    rw [hc]

/-- C10: the fallback return after the stop-search loop of getColor is
unreachable: the clamped value always satisfies the test at one of the
stops (the last stop has threshold 1), so every result of getColor comes
from the interpolation branch with the saturation boost. -/
theorem C10_fallback_unreachable :
    ∀ v : ℚ, ∃ c, findStop (min (max v 0) 1) (0.0, 0x0000ff)
        [(0.25, 0x00ffff), (0.5, 0x00ff00), (0.75, 0xffff00), (1.0, 0xff0000)] = some c ∧
      getColor v = c := by
  intro v
  have hle : min (max v 0) 1 ≤ (1.0 : ℚ) := by
    have := min_le_right (max v 0) 1
    norm_num
  have hsome : ∃ c, findStop (min (max v 0) 1) ((0.0 : ℚ), 0x0000ff)
      [(0.25, 0x00ffff), (0.5, 0x00ff00), (0.75, 0xffff00), (1.0, 0xff0000)] = some c := by
    by_cases h1 : min (max v 0) 1 ≤ (0.25 : ℚ)
    · exact ⟨interpStops (0.0, 0x0000ff) (0.25, 0x00ffff) (min (max v 0) 1),
        by simp [findStop, h1]⟩
    · by_cases h2 : min (max v 0) 1 ≤ (0.5 : ℚ)
      · exact ⟨interpStops (0.25, 0x00ffff) (0.5, 0x00ff00) (min (max v 0) 1),
          by simp [findStop, h1, h2]⟩
      · by_cases h3 : min (max v 0) 1 ≤ (0.75 : ℚ)
        · exact ⟨interpStops (0.5, 0x00ff00) (0.75, 0xffff00) (min (max v 0) 1),
            by simp [findStop, h1, h2, h3]⟩
        · exact ⟨interpStops (0.75, 0xffff00) (1.0, 0xff0000) (min (max v 0) 1),
            by simp [findStop, h1, h2, h3, hle]⟩
  obtain ⟨c, hc⟩ := hsome
  refine ⟨c, hc, ?_⟩
  simp only [getColor, colorStops]
  rw [hc]

/-- C9: when the streaming flag is off, every spectrum_data event, whatever
its payload, leaves the whole page state (waterfall history, chart, log)
unchanged. -/
theorem C9_not_streaming_noop : ∀ (st : AppState) (p : Payload),
    onSpectrumData false st p = st := by
  intro st p
  simp [onSpectrumData]

/-- C6: a spectrum_data payload that fails JSON.parse or misses the freqs
or waterfall field is dropped: the handler only writes the two console
entries, so the history (and everything else) is unchanged and no exception
escapes (the handler is a total function into the same state shape). -/
theorem C6_malformed_frame_dropped (st : AppState) (p : Payload)
    (hm : isMalformed p = true) :
    onSpectrumData true st p = logCatch st ∧
    (onSpectrumData true st p).vis.lines = st.vis.lines ∧
    (onSpectrumData true st p).errLog = st.errLog + 2 := by
  have h1 : onSpectrumData true st p = logCatch st := by
    cases p with
    | badString => simp [onSpectrumData]
    | goodString f =>
      simp only [isMalformed, Bool.or_eq_true, Option.isNone_iff_eq_none] at hm
      rcases hm with hf | hw
      · simp [onSpectrumData, hf]
      · cases hfq : f.freqs <;> simp [onSpectrumData, hw, hfq]
    | obj f =>
      simp only [isMalformed, Bool.or_eq_true, Option.isNone_iff_eq_none] at hm
      rcases hm with hf | hw
      · simp [onSpectrumData, hf]
      · cases hfq : f.freqs <;> simp [onSpectrumData, hw, hfq]
  exact ⟨h1, by rw [h1]; rfl, by rw [h1]; rfl⟩

theorem C6_witness :
    isMalformed (Payload.obj ⟨some [1, 2], some [1, 2], none⟩) = true ∧
      (onSpectrumData true (initApp 800 600)
          (Payload.obj ⟨some [1, 2], some [1, 2], none⟩)).vis.lines =
        (initApp 800 600).vis.lines ∧
      (onSpectrumData true (initApp 800 600)
          (Payload.obj ⟨some [1, 2], some [1, 2], none⟩)).errLog =
        (initApp 800 600).errLog + 2 := by
  have hm : isMalformed (Payload.obj ⟨some [1, 2], some [1, 2], none⟩) = true := by decide
  have h := C6_malformed_frame_dropped (initApp 800 600)
    (Payload.obj ⟨some [1, 2], some [1, 2], none⟩) hm
  exact ⟨hm, h.2.1, h.2.2⟩

theorem maybePop_cons (a : Row) (l : List Row) : ∃ X, maybePop (a :: l) = a :: X := by
  unfold maybePop
  by_cases hp : maxLines < (a :: l).length
  · rw [if_pos hp]
    cases l with
    | nil => simp [maxLines] at hp
    | cons b t => exact ⟨(b :: t).dropLast, rfl⟩
  · rw [if_neg hp]
    exact ⟨l, rfl⟩

/-- On a well-formed state with nonnegative container height, the head of
this.lines right after addData is the freshly built line, already advanced
once, with geometry built from the current container width. -/
theorem addData_head (st : VisState) (wf : List ℚ) (hWF : WFv st) (hh : 0 ≤ st.height) :
    (addData st wf).lines.head? =
      some ⟨st.nextId, st.height - spacing, createGeometry st.width wf⟩ := by
  have hlines := (addData_char st wf hWF).1
  obtain ⟨X, hX⟩ := maybePop_cons (newRow st wf) st.lines
  rw [hlines, hX, advance_cons]
  have hkeep : ¬ ((newRow st wf).y - spacing < -spacing) := by
    simp only [newRow]
    intro hcon
    linarith
  rw [if_neg hkeep]
  rfl

/-- C1 as amended: addData performs no sample-count validation, so a frame
with fewer than two samples is inserted like any other: no error is
surfaced, a new line object is constructed (counter advances) and the row
is present as the new head of the history, carrying the degenerate geometry
createGeometry builds from N < 2 samples. -/
theorem C1_short_frame_inserted (st : VisState) (wf : List ℚ)
    (hWF : WFv st) (hshort : wf.length < 2) (hh : 0 ≤ st.height) :
    (addData st wf).lines.head? =
      some ⟨st.nextId, st.height - spacing, createGeometry st.width wf⟩ ∧
    (addData st wf).nextId = st.nextId + 1 :=
  ⟨addData_head st wf hWF hh, addData_nextId st wf⟩

/-- C1 counterexample: inserting the one-sample frame [5] into the freshly
constructed visualizer is not rejected: the history grows from 0 rows to 1
row. -/
theorem C1_counterexample :
    (initVis 800 600).lines.length = 0 ∧
    (addData (initVis 800 600) [(5 : ℚ)]).lines.length = 1 := by
  refine ⟨rfl, ?_⟩
  norm_num [addData, initVis, createGeometry, normalizeData, listMin, listMax, getColor,
    colorStops, findStop, interpStops, getHSL, setHSL, hue2rgb, emod1, ofHex, jsDiv,
    jsMulNat, zScale, spacing, maxLines, evictLoop, decRow]

theorem C1_witness :
    WFv (initVis 800 600) ∧ [(5 : ℚ)].length < 2 ∧
      (addData (initVis 800 600) [(5 : ℚ)]).lines.head? =
        some ⟨0, (600 : ℚ) - spacing, createGeometry 800 [(5 : ℚ)]⟩ := by
  have hWF : WFv (initVis 800 600) := by
    refine ⟨?_, ?_, ?_⟩ <;> simp [initVis]
  refine ⟨hWF, by decide, ?_⟩
  have h := (C1_short_frame_inserted (initVis 800 600) [(5 : ℚ)] hWF (by decide)
    (by decide)).1
  simpa [initVis] using h

theorem WFv_cons_nodup (st : VisState) (wf : List ℚ) (h : WFv st) :
    ((newRow st wf :: st.lines).map Row.id).Nodup := by
  obtain ⟨hnd, hlt, _⟩ := h
  have hnotmem : st.nextId ∉ st.lines.map Row.id := by
    intro hmem
    obtain ⟨r, hr, hrid⟩ := List.mem_map.mp hmem
    exact absurd (hrid ▸ hlt r hr) (lt_irrefl _)
  simpa [newRow] using List.nodup_cons.mpr ⟨hnotmem, hnd⟩

theorem maybePop_subset (l : List Row) : maybePop l ⊆ l := by
  unfold maybePop
  split_ifs
  · exact List.dropLast_subset _
  · exact fun x hx => hx

/-- C7: after every addData step, every row still held has
y at least -spacing (the visible-depth bound of the code), and any
pre-existing row whose advanced position falls below the bound is gone from
both this.lines and the scene in that same step. -/
theorem C7_depth_bound_eviction (st : VisState) (wf : List ℚ) (hWF : WFv st) :
    (∀ r ∈ (addData st wf).lines, -spacing ≤ r.y) ∧
    (∀ r ∈ st.lines, r.y - spacing < -spacing →
      (∀ q ∈ (addData st wf).lines, q.id ≠ r.id) ∧ r.id ∉ (addData st wf).scene) := by
  obtain ⟨hlines, hscene⟩ := addData_char st wf hWF
  have hnd1 := WFv_cons_nodup st wf hWF
  constructor
  · intro r hr
    rw [hlines] at hr
    unfold advance at hr
    obtain ⟨_, hr2⟩ := List.mem_filter.mp hr
    have hnl : ¬ (r.y < -spacing) := by simpa using hr2
    exact not_lt.mp hnl
  · intro r hr hevict
    have hq : ∀ q ∈ (addData st wf).lines, q.id ≠ r.id := by
      intro q hqmem hid
      rw [hlines] at hqmem
      unfold advance at hqmem
      obtain ⟨hq1, hq2⟩ := List.mem_filter.mp hqmem
      obtain ⟨r0, hr0mem, rfl⟩ := List.mem_map.mp hq1
      have hr0mem2 : r0 ∈ newRow st wf :: st.lines := maybePop_subset _ hr0mem
      have hrmem2 : r ∈ newRow st wf :: st.lines := List.mem_cons_of_mem _ hr
      have hideq : r0.id = r.id := by
        have h0 : (decRow r0).id = r.id := hid
        simpa [decRow_id] using h0
      have hr0r : r0 = r := List.inj_on_of_nodup_map hnd1 hr0mem2 hrmem2 hideq
      subst hr0r
      have hkept : ¬ ((decRow r0).y < -spacing) := by simpa using hq2
      rw [decRow_y] at hkept
      exact hkept hevict
    refine ⟨hq, ?_⟩
    rw [hscene]
    intro hmem
    rw [List.mem_reverse] at hmem
    obtain ⟨q, hqmem, hqid⟩ := List.mem_map.mp hmem
    exact hq q (by rw [hlines]; exact hqmem) hqid

theorem C7_witness :
    WFv wit7State ∧ wit7Row ∈ wit7State.lines ∧ wit7Row.y - spacing < -spacing ∧
      wit7Row.id ∉ (addData wit7State [(0 : ℚ), 1]).scene := by
  have hWF : WFv wit7State := by
    refine ⟨?_, ?_, ?_⟩ <;> simp [wit7State, wit7Row]
  have hmem : wit7Row ∈ wit7State.lines := by simp [wit7State]
  have hev : wit7Row.y - spacing < -spacing := by norm_num [wit7Row, spacing]
  exact ⟨hWF, hmem, hev,
    ((C7_depth_bound_eviction wit7State [(0 : ℚ), 1] hWF).2 wit7Row hmem hev).2⟩

theorem evictLoop_fst_source (rest : List Row) :
    ∀ L sc r, r ∈ (evictLoop rest (L, sc)).1 →
      ∃ r0 ∈ L, r0.id = r.id ∧ r0.geom = r.geom := by
  induction rest with
  | nil =>
    intro L sc r hr
    exact ⟨r, by simpa [evictLoop] using hr, rfl, rfl⟩
  | cons a t ih =>
    intro L sc r hr
    simp only [evictLoop] at hr
    by_cases hrem : a.y - spacing < -spacing
    · rw [if_pos hrem] at hr
      obtain ⟨r1, hr1, hid, hgeom⟩ := ih _ _ r hr
      have hr1b : r1 ∈ L.map (fun x => if x.id = a.id then decRow x else x) :=
        List.mem_of_mem_filter hr1
      obtain ⟨r0, hr0, hmapeq⟩ := List.mem_map.mp hr1b
      have hid0 : r0.id = r1.id := by
        rw [← hmapeq]
        by_cases hcase : r0.id = a.id
        · rw [if_pos hcase, decRow_id]
        · rw [if_neg hcase]
      have hg0 : r0.geom = r1.geom := by
        rw [← hmapeq]
        by_cases hcase : r0.id = a.id
        · rw [if_pos hcase, decRow_geom]
        · rw [if_neg hcase]
      exact ⟨r0, hr0, by rw [hid0, hid], by rw [hg0, hgeom]⟩
    · rw [if_neg hrem] at hr
      obtain ⟨r1, hr1b, hid, hgeom⟩ := ih _ _ r hr
      obtain ⟨r0, hr0, hmapeq⟩ := List.mem_map.mp hr1b
      have hid0 : r0.id = r1.id := by
        rw [← hmapeq]
        by_cases hcase : r0.id = a.id
        · rw [if_pos hcase, decRow_id]
        · rw [if_neg hcase]
      have hg0 : r0.geom = r1.geom := by
        rw [← hmapeq]
        by_cases hcase : r0.id = a.id
        · rw [if_pos hcase, decRow_geom]
        · rw [if_neg hcase]
      exact ⟨r0, hr0, by rw [hid0, hid], by rw [hg0, hgeom]⟩

theorem normalizeData_length (d : List ℚ) : (normalizeData d).length = d.length := by
  simp only [normalizeData]
  split_ifs <;> simp

theorem range_map_head {α : Type} (k : ℕ) (hk : 0 < k) (f : ℕ → α) :
    ((List.range k).map f).head? = some (f 0) := by
  obtain ⟨m, rfl⟩ := Nat.exists_eq_succ_of_ne_zero (Nat.pos_iff_ne_zero.mp hk)
  rw [List.range_succ_eq_map]
  simp

theorem range_map_getLast {α : Type} (k : ℕ) (hk : 0 < k) (f : ℕ → α) :
    ((List.range k).map f).getLast? = some (f (k - 1)) := by
  obtain ⟨m, rfl⟩ := Nat.exists_eq_succ_of_ne_zero (Nat.pos_iff_ne_zero.mp hk)
  rw [List.range_succ, List.map_append]
  simp

/-- C8: after a resize to width w2 and height h2, the next inserted row is
built with geometry from the new width: its x coordinates start at 0, end
exactly at w2 and all lie in [0, w2]; every row of the previous state that
is still present keeps its original geometry untouched (no re-stretch). -/
theorem C8_resize_semantics (st : VisState) (w2 h2 : ℚ) (wf : List ℚ)
    (hWF : WFv st) (hN : 2 ≤ wf.length) (hw : 0 ≤ w2) (hh : 0 ≤ h2) :
    (addData (resizeContainer st w2 h2) wf).lines.head? =
      some ⟨st.nextId, h2 - spacing, createGeometry w2 wf⟩ ∧
    (createGeometry w2 wf).positions.head?.map Prod.fst = some (JSVal.num 0) ∧
    (createGeometry w2 wf).positions.getLast?.map Prod.fst = some (JSVal.num w2) ∧
    (∀ p ∈ (createGeometry w2 wf).positions, ∃ q, p.1 = JSVal.num q ∧ 0 ≤ q ∧ q ≤ w2) ∧
    (∀ r ∈ (addData (resizeContainer st w2 h2) wf).lines, r.id ≠ st.nextId →
      ∃ r0 ∈ st.lines, r0.id = r.id ∧ r0.geom = r.geom) := by
  have hWF2 : WFv (resizeContainer st w2 h2) := hWF
  have hlen : (normalizeData wf).length = wf.length := normalizeData_length wf
  have hn2 : 2 ≤ (normalizeData wf).length := by omega
  have h2c : (2 : ℚ) ≤ ((normalizeData wf).length : ℚ) := by exact_mod_cast hn2
  have hdenpos : 0 < ((normalizeData wf).length : ℚ) - 1 := by linarith
  have hden : ((normalizeData wf).length : ℚ) - 1 ≠ 0 := ne_of_gt hdenpos
  have hxs : jsDiv w2 (((normalizeData wf).length : ℚ) - 1) =
      JSVal.num (w2 / (((normalizeData wf).length : ℚ) - 1)) := by
    unfold jsDiv
    rw [if_neg hden]
  have hpos0 : 0 < (normalizeData wf).length := by omega
  refine ⟨?_, ?_, ?_, ?_, ?_⟩
  · exact addData_head (resizeContainer st w2 h2) wf hWF2 hh
  · simp only [createGeometry, hxs]
    rw [range_map_head _ hpos0]
    norm_num [jsMulNat]
  · simp only [createGeometry, hxs]
    rw [range_map_getLast _ hpos0]
    have hcast : (((normalizeData wf).length - 1 : ℕ) : ℚ) =
        ((normalizeData wf).length : ℚ) - 1 := by
      have h1 : 1 ≤ (normalizeData wf).length := by omega
      rw [Nat.cast_sub h1, Nat.cast_one]
    have hmul : (((normalizeData wf).length - 1 : ℕ) : ℚ) *
        (w2 / (((normalizeData wf).length : ℚ) - 1)) = w2 := by
      rw [hcast, ← mul_div_assoc, mul_div_cancel_left₀ _ hden]
    simp [jsMulNat, hmul]
  · intro p hp
    simp only [createGeometry, hxs] at hp
    obtain ⟨i, hi, rfl⟩ := List.mem_map.mp hp
    have hilt : i < (normalizeData wf).length := List.mem_range.mp hi
    refine ⟨(i : ℚ) * (w2 / (((normalizeData wf).length : ℚ) - 1)), ?_, ?_, ?_⟩
    · simp [jsMulNat]
    · exact mul_nonneg (Nat.cast_nonneg i) (div_nonneg hw (le_of_lt hdenpos))
    · have hic : (i : ℚ) ≤ ((normalizeData wf).length : ℚ) - 1 := by
        have : (i : ℚ) + 1 ≤ ((normalizeData wf).length : ℚ) := by exact_mod_cast hilt
        linarith
      calc (i : ℚ) * (w2 / (((normalizeData wf).length : ℚ) - 1))
          ≤ (((normalizeData wf).length : ℚ) - 1) *
              (w2 / (((normalizeData wf).length : ℚ) - 1)) :=
            mul_le_mul_of_nonneg_right hic (div_nonneg hw (le_of_lt hdenpos))
        _ = w2 := by rw [← mul_div_assoc, mul_div_cancel_left₀ _ hden]
  · intro r hr hne
    have hlines := (addData_char (resizeContainer st w2 h2) wf hWF2).1
    rw [hlines] at hr
    unfold advance at hr
    obtain ⟨hq1, _⟩ := List.mem_filter.mp hr
    obtain ⟨r1, hr1, rfl⟩ := List.mem_map.mp hq1
    have hr1b : r1 ∈ newRow (resizeContainer st w2 h2) wf :: st.lines :=
      maybePop_subset _ hr1
    rcases List.mem_cons.mp hr1b with hEq | hmem
    · exfalso
      apply hne
      rw [decRow_id, hEq]
      rfl
    · exact ⟨r1, hmem, by rw [decRow_id], by rw [decRow_geom]⟩

theorem C8_witness :
    WFv (initVis 800 600) ∧ 2 ≤ [(0 : ℚ), 1].length ∧ (0 : ℚ) ≤ 1600 ∧ (0 : ℚ) ≤ 600 ∧
      (addData (resizeContainer (initVis 800 600) 1600 600) [(0 : ℚ), 1]).lines.head? =
        some ⟨0, (600 : ℚ) - spacing, createGeometry 1600 [(0 : ℚ), 1]⟩ ∧
      (createGeometry 1600 [(0 : ℚ), 1]).positions.getLast?.map Prod.fst =
        some (JSVal.num 1600) := by
  have hWF : WFv (initVis 800 600) := by
    refine ⟨?_, ?_, ?_⟩ <;> simp [initVis]
  have h := C8_resize_semantics (initVis 800 600) 1600 600 [(0 : ℚ), 1] hWF
    (by decide) (by decide) (by decide)
  exact ⟨hWF, by decide, by decide, by decide, h.1, h.2.2.1⟩

theorem filter_of_map {α β : Type} (f : α → β) (p : β → Bool) (l : List α) :
    (l.map f).filter p = (l.filter (fun x => p (f x))).map f := by
  induction l with
  | nil => rfl
  | cons a t ih =>
    simp only [List.map_cons, List.filter_cons]
    by_cases hp : p (f a)
    · simp [hp, ih]
    · simp [hp, ih]

theorem filter_range_lt (D : ℕ) (p : ℕ → Bool) (hp : ∀ j, p j = decide (j < D)) :
    ∀ K, (List.range K).filter p = List.range (min K D) := by
  intro K
  induction K with
  | zero => simp
  | succ k ih =>
    rw [List.range_succ, List.filter_append, ih]
    by_cases hk : k < D
    · have h1 : min (k + 1) D = min k D + 1 := by omega
      have h2 : min k D = k := by omega
      rw [h1, h2, List.range_succ]
      simp [hp, hk]
    · have h1 : min (k + 1) D = min k D := by omega
      rw [h1]
      simp [hp, hk]

theorem decRow_preRow (w h : ℚ) (fs : ℕ → List ℚ) (m j : ℕ) :
    decRow (preRow w h fs m j) = rowAt w h fs (m + 1) j := by
  have hidx : m + 1 - 1 - j = m - j := by omega
  simp only [decRow, preRow, rowAt, hidx, spacing]
  congr 1
  ring

/-- Closed form of the state after m inserts, for container height h ≥ 0:
the counter is m, the container size is unchanged, the history holds
exactly Lm h m rows described by rowAt, and the scene lists them oldest
first. -/
theorem insertSeq_char (w h : ℚ) (fs : ℕ → List ℚ) (h0 : 0 ≤ h) :
    ∀ m : ℕ,
      (insertSeq w h fs m).nextId = m ∧
      (insertSeq w h fs m).width = w ∧
      (insertSeq w h fs m).height = h ∧
      (insertSeq w h fs m).lines = (List.range (Lm h m)).map (rowAt w h fs m) ∧
      (insertSeq w h fs m).scene = (((insertSeq w h fs m).lines).map Row.id).reverse := by
  intro m
  induction m with
  | zero =>
    refine ⟨rfl, rfl, rfl, ?_, rfl⟩
    simp [insertSeq, initVis, Lm]
  | succ m ih =>
    obtain ⟨hnid, hww, hhh, hlines, hscene⟩ := ih
    have hLm : Lm h m ≤ m := min_le_left _ _
    have hLmax : Lm h m ≤ maxLines := le_trans (min_le_right _ _) (min_le_left _ _)
    have hWF : WFv (insertSeq w h fs m) := by
      refine ⟨?_, ?_, hscene⟩
      · rw [hlines, List.map_map]
        refine List.Nodup.map_on ?_ (List.nodup_range (Lm h m))
        intro x hx y hy hxy
        have hx2 := List.mem_range.mp hx
        have hy2 := List.mem_range.mp hy
        simp only [Function.comp, rowAt] at hxy
        omega
      · intro r hr
        rw [hlines] at hr
        obtain ⟨j, hj, rfl⟩ := List.mem_map.mp hr
        have hj2 := List.mem_range.mp hj
        simp only [rowAt, hnid]
        omega
    obtain ⟨hlines2, hscene2⟩ := addData_char (insertSeq w h fs m) (fs m) hWF
    have hstep : insertSeq w h fs (m + 1) = addData (insertSeq w h fs m) (fs m) := rfl
    have hnew : newRow (insertSeq w h fs m) (fs m) = ⟨m, h, createGeometry w (fs m)⟩ := by
      simp [newRow, hnid, hww, hhh]
    have hcons : newRow (insertSeq w h fs m) (fs m) :: (insertSeq w h fs m).lines
        = (List.range (Lm h m + 1)).map (preRow w h fs m) := by
      rw [hnew, hlines, List.range_succ_eq_map, List.map_cons, List.map_map]
      congr 1
      · simp [preRow]
      · apply List.map_congr_left
        intro j hj
        have hidx : m - 1 - j = m - (j + 1) := by omega
        simp only [Function.comp, rowAt, preRow, hidx]
        congr 1
        push_cast
        ring
    have hmplen : ((List.range (Lm h m + 1)).map (preRow w h fs m)).length = Lm h m + 1 := by
      simp
    have hmp : maybePop ((List.range (Lm h m + 1)).map (preRow w h fs m))
        = (List.range (min (Lm h m + 1) maxLines)).map (preRow w h fs m) := by
      unfold maybePop
      by_cases hc : maxLines < ((List.range (Lm h m + 1)).map (preRow w h fs m)).length
      · rw [if_pos hc]
        rw [hmplen] at hc
        have hmin : min (Lm h m + 1) maxLines = Lm h m := by omega
        rw [hmin, List.range_succ, List.map_append]
        simp only [List.map_cons, List.map_nil]
        rw [List.dropLast_concat]
      · rw [if_neg hc]
        rw [hmplen] at hc
        have hmin : min (Lm h m + 1) maxLines = Lm h m + 1 := by omega
        rw [hmin]
    have hfloor : 0 ≤ ⌊h⌋ := Int.floor_nonneg.mpr h0
    have hp : ∀ j : ℕ,
        (!decide ((decRow (preRow w h fs m j)).y < -spacing)) =
          decide (j < ⌊h⌋.toNat + 1) := by
      intro j
      have hy : (decRow (preRow w h fs m j)).y = h - (j : ℚ) - spacing := rfl
      have hiff : ¬((decRow (preRow w h fs m j)).y < -spacing) ↔ j < ⌊h⌋.toNat + 1 := by
        rw [hy, not_lt]
        constructor
        · intro hle
          have hjh : (j : ℚ) ≤ h := by linarith
          have hz : (j : ℤ) ≤ ⌊h⌋ := Int.le_floor.mpr (by exact_mod_cast hjh)
          omega
        · intro hlt
          have hz : (j : ℤ) ≤ ⌊h⌋ := by omega
          have hjh : (j : ℚ) ≤ h := by
            have hq := Int.le_floor.mp hz
            exact_mod_cast hq
          linarith
      rw [← decide_not]
      exact decide_eq_decide.mpr hiff
    have hadv : ∀ K : ℕ, advance ((List.range K).map (preRow w h fs m))
        = (List.range (min K (⌊h⌋.toNat + 1))).map (rowAt w h fs (m + 1)) := by
      intro K
      unfold advance
      rw [List.map_map, filter_of_map]
      rw [filter_range_lt (⌊h⌋.toNat + 1) _ (by intro j; exact hp j) K]
      apply List.map_congr_left
      intro j hj
      exact decRow_preRow w h fs m j
    have hLnew : min (min (Lm h m + 1) maxLines) (⌊h⌋.toNat + 1) = Lm h (m + 1) := by
      simp only [Lm]
      omega
    have hlines3 : (insertSeq w h fs (m + 1)).lines
        = (List.range (Lm h (m + 1))).map (rowAt w h fs (m + 1)) := by
      rw [hstep, hlines2, hcons, hmp, hadv, hLnew]
    refine ⟨?_, ?_, ?_, hlines3, ?_⟩
    · rw [hstep, addData_nextId, hnid]
    · rw [hstep, addData_width, hww]
    · rw [hstep, addData_height, hhh]
    · rw [hstep, hscene2, hlines2]

/-- C3 counterexample: with the viewport fixed at 800 x 600 and maxLines =
5000, feeding 5001 valid 100-sample frames leaves 601 rows, not 5000:
bottom eviction (y below -spacing) caps the history at floor(height) + 1
rows long before capacity matters. The newest row also sits at
y = height - spacing, one advance below the insertion baseline. -/
theorem C3_counterexample :
    (insertSeq 800 600 fseq100 5001).lines.length = 601 ∧
    (insertSeq 800 600 fseq100 5001).lines.length ≠ 5000 ∧
    ((insertSeq 800 600 fseq100 5001).lines.head?).map Row.y =
      some ((600 : ℚ) - spacing) := by
  obtain ⟨_, _, _, hlines, _⟩ := insertSeq_char 800 600 fseq100 (by norm_num) 5001
  have hfl : ⌊(600 : ℚ)⌋ = 600 := by
    rw [Int.floor_eq_iff]
    norm_num
  have hLm : Lm 600 5001 = 601 := by
    simp only [Lm, maxLines, hfl]
    omega
  have hlen : (insertSeq 800 600 fseq100 5001).lines.length = 601 := by
    rw [hlines, List.length_map, List.length_range, hLm]
  refine ⟨hlen, by omega, ?_⟩
  rw [hlines, range_map_head _ (by rw [hLm]; norm_num)]
  norm_num [rowAt, spacing]

/-- C3 as amended: the end-to-end property holds only when the container
height is at least maxLines * spacing = 5000. In that case 5001 inserts of
100-sample frames leave exactly 5000 rows, and the 5001st frame is present
as the newest row at y = height - spacing: one advance (verticalOffset =
spacing, not 0) below the insertion baseline, because addData also moves
the freshly inserted line down in the same call. -/
theorem C3_amended_end_to_end (w h : ℚ) (fs : ℕ → List ℚ)
    (hfs : AllLen100 fs) (hh : 5000 ≤ h) :
    (insertSeq w h fs 5001).lines.length = 5000 ∧
    (insertSeq w h fs 5001).lines.head? =
      some ⟨5000, h - spacing, createGeometry w (fs 5000)⟩ := by
  have h0 : (0 : ℚ) ≤ h := le_trans (by norm_num) hh
  obtain ⟨_, _, _, hlines, _⟩ := insertSeq_char w h fs h0 5001
  have hfl : (5000 : ℤ) ≤ ⌊h⌋ := Int.le_floor.mpr (by exact_mod_cast hh)
  have hLm : Lm h 5001 = 5000 := by
    simp only [Lm, maxLines]
    omega
  constructor
  · rw [hlines, List.length_map, List.length_range, hLm]
  · rw [hlines, range_map_head _ (by rw [hLm]; norm_num)]
    have hrow : rowAt w h fs 5001 0 = ⟨5000, h - spacing, createGeometry w (fs 5000)⟩ := by
      norm_num [rowAt, spacing]
    rw [hrow]

theorem C3_witness :
    AllLen100 fseq100 ∧ (5000 : ℚ) ≤ 5000 ∧
      (insertSeq 800 5000 fseq100 5001).lines.length = 5000 := by
  have hfs : AllLen100 fseq100 := by
    intro i
    show constFrame100.length = 100
    decide
  exact ⟨hfs, le_refl _, (C3_amended_end_to_end 800 5000 fseq100 hfs (le_refl _)).1⟩

theorem C4_witness :
    listMax [(0 : ℚ), 2] ≠ listMin [(0 : ℚ), 2] ∧
      (normalizeData [(0 : ℚ), 2]).length = [(0 : ℚ), 2].length ∧
      (normalizeData [(0 : ℚ), 2]).getD 1 0 =
        ([(0 : ℚ), 2].getD 1 0 - listMin [(0 : ℚ), 2]) /
          (listMax [(0 : ℚ), 2] - listMin [(0 : ℚ), 2]) := by
  have hne : listMax [(0 : ℚ), 2] ≠ listMin [(0 : ℚ), 2] := by decide
  refine ⟨hne, (C4_normalizeData_spec [(0 : ℚ), 2]).1, ?_⟩
  exact ((C4_normalizeData_spec [(0 : ℚ), 2]).2.2 hne).1 1 (by decide)

end Waterfall
